import Mathlib

/-!
Verification development for the trackit repository: a shallow embedding of
the Tracking Synchronization and Location Cache subsystem (event merging,
package summary computation, the geocoding cache with aliasing and sticky
failures, the sync engine error surface) together with the dashboard
"Refresh All" behaviour from the React frontend
(src/frontend/src/pages/DashboardPage.tsx).

The backend service code (the FastAPI application listed in the README) is
not part of the available sources; only its frontend callers and type
declarations are.  Definitions for the backend subsystem are therefore
modelled from the specification text, as indicated in their doc comments.
Frontend behaviour (Refresh All, display sorting) is translated directly
from the TypeScript sources.

Timestamps are modelled as natural numbers (epoch instants); provider
statuses are the canonical vocabulary of `PackageStatus` in
src/frontend/src/types/index.ts.
-/

namespace Trackit

/-- Canonical package/event status, from `PackageStatus` in
src/frontend/src/types/index.ts. -/
inductive Status where
  | pending
  | inTransit
  | outForDelivery
  | delivered
  | exception
  | unknown
deriving DecidableEq, Repr

/-- Persisted tracking event, from `TrackingEvent` in
src/frontend/src/types/index.ts (identity and bookkeeping columns omitted;
the timestamp is an epoch natural). -/
structure TrackingEvent where
  status : Status
  location : Option String
  timestamp : Nat
  description : Option String
  courier_event_code : Option String
deriving DecidableEq, Repr

/-- Raw event as fetched from the courier tracking provider.  The provider
status is free text; a `none` timestamp models an unparseable timestamp. -/
structure RawEvent where
  status : String
  location : Option String
  timestamp : Option Nat
  description : Option String
  courier_event_code : Option String
deriving DecidableEq, Repr

/-- Modelled from the spec: map the provider status vocabulary to the
canonical status enum, unmapped values become Unknown (spec section 4.3 step 2).
The canonical strings are the `PackageStatus` values of
src/frontend/src/types/index.ts. -/
def mapStatus (s : String) : Status :=
  if s = "Pending" then .pending
  else if s = "In Transit" then .inTransit
  else if s = "Out for Delivery" then .outForDelivery
  else if s = "Delivered" then .delivered
  else if s = "Exception" then .exception
  else .unknown

/-- Natural key of an event: the (timestamp, status, courier_event_code)
triple used for deduplication (spec section 3). -/
def naturalKey (e : TrackingEvent) : Nat × Status × Option String :=
  (e.timestamp, e.status, e.courier_event_code)

/-- Modelled from the spec: parse an incoming raw event; a malformed event
(unparseable timestamp) yields `none` and is dropped by the merge
(spec section 4.3, failure semantics). -/
def parseRaw (r : RawEvent) : Option TrackingEvent :=
  r.timestamp.map fun ts =>
    { status := mapStatus r.status
      location := r.location
      timestamp := ts
      description := r.description
      courier_event_code := r.courier_event_code }

/-- Modelled from the spec: walk the incoming events in provider order,
skipping any whose natural key is already present (either persisted or
accepted earlier in the same fetch), accumulating the new events
(spec section 4.3 steps 1 and 2). -/
def dedupNew (keys : List (Nat × Status × Option String)) :
    List RawEvent → List TrackingEvent
  | [] => []
  | r :: rs =>
    match parseRaw r with
    | none => dedupNew keys rs
    | some e =>
      if naturalKey e ∈ keys then dedupNew keys rs
      else e :: dedupNew (naturalKey e :: keys) rs

/-- Step function selecting the chronologically later of two events; on a
timestamp tie the second argument (the one later in fetch order) wins, as a
stable ascending sort would order it last. -/
def pickLater (cur x : TrackingEvent) : TrackingEvent :=
  if cur.timestamp ≤ x.timestamp then x else cur

/-- Modelled from the spec: the chronologically latest event of a list held
in fetch order, i.e. the last element of the stable sort of the list by
timestamp ascending (spec section 4.3 step 3).  On equal timestamps the
event occurring later in the list wins, matching the stable-sort tie break
by original fetch order. -/
def latestEvent : List TrackingEvent → Option TrackingEvent
  | [] => none
  | e :: es => some (es.foldl pickLater e)

/-- Modelled from the spec: timestamp of the latest event whose status is
Delivered, if any (spec section 4.3 step 4). -/
def latestDeliveredAt (l : List TrackingEvent) : Option Nat :=
  (latestEvent (l.filter fun e => e.status = Status.delivered)).map (·.timestamp)

/-- Derived summary fields of a package, from `Package` in
src/frontend/src/types/index.ts. -/
structure Summary where
  last_status : Option Status
  last_location : Option String
  last_updated : Option Nat
  delivered_at : Option Nat
deriving DecidableEq, Repr

/-- Modelled from the spec: compute the summary from the union of existing
and new events (spec section 4.3 step 4). -/
def computeSummary (l : List TrackingEvent) : Summary :=
  { last_status := (latestEvent l).map (·.status)
    last_location := (latestEvent l).bind (·.location)
    last_updated := (latestEvent l).map (·.timestamp)
    delivered_at := latestDeliveredAt l }

/-- Result of a merge: the events to insert and the recomputed summary. -/
structure MergeResult where
  newEvents : List TrackingEvent
  summary : Summary
deriving DecidableEq, Repr

/-- Modelled from the spec: the EventMerger contract
`merge(existingEvents, incomingEvents) -> {newEvents, summary}`
(spec section 4.3). -/
def merge (existing : List TrackingEvent) (incoming : List RawEvent) : MergeResult :=
  let newEvents := dedupNew (existing.map naturalKey) incoming
  { newEvents := newEvents
    summary := computeSummary (existing ++ newEvents) }

/-! ### Basic lemmas about deduplication -/

theorem dedupNew_key_not_mem {keys : List (Nat × Status × Option String)}
    {rs : List RawEvent} {e : TrackingEvent}
    (he : e ∈ dedupNew keys rs) : naturalKey e ∉ keys := by
  induction rs generalizing keys with
  | nil => simp [dedupNew] at he
  | cons r rs ih =>
    cases hp : parseRaw r with
    | none => simp only [dedupNew, hp] at he; exact ih he
    | some e₀ =>
      simp only [dedupNew, hp] at he
      by_cases hk : naturalKey e₀ ∈ keys
      · rw [if_pos hk] at he; exact ih he
      · rw [if_neg hk] at he
        rcases List.mem_cons.mp he with he | he
        · subst he; exact hk
        · have := ih he
          intro hmem
          exact this (List.mem_cons_of_mem _ hmem)

theorem dedupNew_nodup (keys : List (Nat × Status × Option String))
    (rs : List RawEvent) : ((dedupNew keys rs).map naturalKey).Nodup := by
  induction rs generalizing keys with
  | nil => simp [dedupNew]
  | cons r rs ih =>
    cases hp : parseRaw r with
    | none => simp only [dedupNew, hp]; exact ih keys
    | some e₀ =>
      simp only [dedupNew, hp]
      by_cases hk : naturalKey e₀ ∈ keys
      · rw [if_pos hk]; exact ih keys
      · rw [if_neg hk]
        simp only [List.map_cons, List.nodup_cons]
        refine ⟨?_, ih _⟩
        intro hmem
        rcases List.mem_map.mp hmem with ⟨x, hx, hkey⟩
        have := dedupNew_key_not_mem hx
        rw [hkey] at this
        exact this (List.mem_cons_self _ _)

theorem dedupNew_covers {keys : List (Nat × Status × Option String)}
    {rs : List RawEvent} {r : RawEvent} {e : TrackingEvent}
    (hr : r ∈ rs) (hp : parseRaw r = some e) :
    naturalKey e ∈ keys ∨ naturalKey e ∈ (dedupNew keys rs).map naturalKey := by
  induction rs generalizing keys with
  | nil => cases hr
  | cons r₀ rs ih =>
    rcases List.mem_cons.mp hr with hr0 | hrs
    · subst hr0
      simp only [dedupNew, hp]
      by_cases hk : naturalKey e ∈ keys
      · exact Or.inl hk
      · rw [if_neg hk]
        right
        simp
    · cases hp₀ : parseRaw r₀ with
      | none => simp only [dedupNew, hp₀]; exact ih hrs
      | some e₀ =>
        simp only [dedupNew, hp₀]
        by_cases hk : naturalKey e₀ ∈ keys
        · rw [if_pos hk]; exact ih hrs
        · rw [if_neg hk]
          rcases @ih (naturalKey e₀ :: keys) hrs with h | h
          · rcases List.mem_cons.mp h with h | h
            · right; simp only [List.map_cons, List.mem_cons]; exact Or.inl h
            · exact Or.inl h
          · right
            simp only [List.map_cons, List.mem_cons]
            exact Or.inr h

theorem dedupNew_eq_nil_of_covered {keys : List (Nat × Status × Option String)}
    {rs : List RawEvent}
    (h : ∀ r ∈ rs, ∀ e, parseRaw r = some e → naturalKey e ∈ keys) :
    dedupNew keys rs = [] := by
  induction rs generalizing keys with
  | nil => rfl
  | cons r rs ih =>
    cases hp : parseRaw r with
    | none =>
      simp only [dedupNew, hp]
      exact ih fun r' hr' e he => h r' (List.mem_cons_of_mem _ hr') e he
    | some e =>
      simp only [dedupNew, hp]
      rw [if_pos (h r (List.mem_cons_self _ _) e hp)]
      exact ih fun r' hr' e' he' => h r' (List.mem_cons_of_mem _ hr') e' he'

/-! ### Lemmas about the chronologically latest event -/

theorem pickLater_eq_right {a b : TrackingEvent} (h : a.timestamp ≤ b.timestamp) :
    pickLater a b = b := by
  unfold pickLater
  exact if_pos h

theorem pickLater_eq_left {a b : TrackingEvent} (h : ¬ a.timestamp ≤ b.timestamp) :
    pickLater a b = a := by
  unfold pickLater
  exact if_neg h

theorem foldl_pickLater_mem (l : List TrackingEvent) (cur : TrackingEvent) :
    l.foldl pickLater cur = cur ∨ l.foldl pickLater cur ∈ l := by
  induction l generalizing cur with
  | nil => exact Or.inl rfl
  | cons y ys ih =>
    simp only [List.foldl_cons]
    rcases ih (pickLater cur y) with h | h
    · rw [h]
      by_cases hle : cur.timestamp ≤ y.timestamp
      · rw [pickLater_eq_right hle]
        exact Or.inr (List.mem_cons_self _ _)
      · rw [pickLater_eq_left hle]
        exact Or.inl rfl
    · exact Or.inr (List.mem_cons_of_mem _ h)

theorem le_foldl_pickLater (l : List TrackingEvent) (cur : TrackingEvent) :
    ∀ x, (x = cur ∨ x ∈ l) → x.timestamp ≤ (l.foldl pickLater cur).timestamp := by
  induction l generalizing cur with
  | nil =>
    intro x hx
    rcases hx with hx | hx
    · subst hx; exact Nat.le_refl _
    · cases hx
  | cons y ys ih =>
    intro x hx
    simp only [List.foldl_cons]
    have hcur : cur.timestamp ≤ (pickLater cur y).timestamp := by
      by_cases hle : cur.timestamp ≤ y.timestamp
      · rw [pickLater_eq_right hle]; exact hle
      · rw [pickLater_eq_left hle]
    have hy : y.timestamp ≤ (pickLater cur y).timestamp := by
      by_cases hle : cur.timestamp ≤ y.timestamp
      · rw [pickLater_eq_right hle]
      · rw [pickLater_eq_left hle]; omega
    rcases hx with hx | hx
    · rw [hx]
      exact Nat.le_trans hcur (ih (pickLater cur y) _ (Or.inl rfl))
    · rcases List.mem_cons.mp hx with hx | hx
      · rw [hx]
        exact Nat.le_trans hy (ih (pickLater cur y) _ (Or.inl rfl))
      · exact ih (pickLater cur y) x (Or.inr hx)

theorem foldl_pickLater_of_lt (l : List TrackingEvent) (cur : TrackingEvent)
    (h : ∀ x ∈ l, x.timestamp < cur.timestamp) : l.foldl pickLater cur = cur := by
  induction l generalizing cur with
  | nil => rfl
  | cons y ys ih =>
    simp only [List.foldl_cons]
    have hlt := h y (List.mem_cons_self _ _)
    have : pickLater cur y = cur := pickLater_eq_left (by omega)
    rw [this]
    exact ih cur fun x hx => h x (List.mem_cons_of_mem _ hx)

theorem latestEvent_mem {l : List TrackingEvent} {e : TrackingEvent}
    (h : latestEvent l = some e) : e ∈ l := by
  cases l with
  | nil => cases h
  | cons y ys =>
    simp only [latestEvent, Option.some_inj] at h
    rcases foldl_pickLater_mem ys y with h₀ | h₀
    · rw [h₀] at h; subst h; exact List.mem_cons_self _ _
    · rw [← h]; exact List.mem_cons_of_mem _ h₀

theorem latestEvent_isMax {l : List TrackingEvent} {e : TrackingEvent}
    (h : latestEvent l = some e) : ∀ x ∈ l, x.timestamp ≤ e.timestamp := by
  cases l with
  | nil => cases h
  | cons y ys =>
    simp only [latestEvent, Option.some_inj] at h
    intro x hx
    rw [← h]
    rcases List.mem_cons.mp hx with hx | hx
    · exact le_foldl_pickLater ys y x (Or.inl hx)
    · exact le_foldl_pickLater ys y x (Or.inr hx)

theorem latestEvent_stable (l₁ : List TrackingEvent) (e : TrackingEvent)
    (l₂ : List TrackingEvent)
    (h₁ : ∀ x ∈ l₁, x.timestamp ≤ e.timestamp)
    (h₂ : ∀ x ∈ l₂, x.timestamp < e.timestamp) :
    latestEvent (l₁ ++ e :: l₂) = some e := by
  cases l₁ with
  | nil =>
    simp only [List.nil_append, latestEvent, Option.some_inj]
    exact foldl_pickLater_of_lt l₂ e h₂
  | cons y ys =>
    simp only [List.cons_append, latestEvent, Option.some_inj, List.foldl_append,
      List.foldl_cons]
    have hc : (ys.foldl pickLater y).timestamp ≤ e.timestamp := by
      rcases foldl_pickLater_mem ys y with h | h
      · rw [h]; exact h₁ y (List.mem_cons_self _ _)
      · exact h₁ _ (List.mem_cons_of_mem _ h)
    rw [pickLater_eq_right hc]
    exact foldl_pickLater_of_lt l₂ e h₂

/-! ### Lemmas about delivered-at -/

theorem latestDeliveredAt_mono {existing : List TrackingEvent} {d : Nat}
    (h : latestDeliveredAt existing = some d) (more : List TrackingEvent) :
    ∃ d', latestDeliveredAt (existing ++ more) = some d' ∧ d ≤ d' := by
  classical
  simp only [latestDeliveredAt, Option.map_eq_some'] at h
  rcases h with ⟨ev, hev, hts⟩
  have hmem : ev ∈ existing.filter fun e => e.status = Status.delivered :=
    latestEvent_mem hev
  have hfil : (existing ++ more).filter (fun e => e.status = Status.delivered)
      = (existing.filter fun e => e.status = Status.delivered)
        ++ (more.filter fun e => e.status = Status.delivered) :=
    List.filter_append _ _
  cases hu : (existing ++ more).filter (fun e => e.status = Status.delivered) with
  | nil =>
    exfalso
    have : ev ∈ (existing ++ more).filter fun e => e.status = Status.delivered := by
      rw [hfil]
      exact List.mem_append_left _ hmem
    rw [hu] at this
    cases this
  | cons y ys =>
    refine ⟨(ys.foldl pickLater y).timestamp, ?_, ?_⟩
    · simp [latestDeliveredAt, hu, latestEvent]
    · have hmax : ∀ x ∈ y :: ys, x.timestamp ≤ (ys.foldl pickLater y).timestamp := by
        intro x hx
        rcases List.mem_cons.mp hx with hx | hx
        · exact le_foldl_pickLater ys y x (Or.inl hx)
        · exact le_foldl_pickLater ys y x (Or.inr hx)
      have : ev ∈ y :: ys := by
        rw [← hu, hfil]
        exact List.mem_append_left _ hmem
      rw [← hts]
      exact hmax ev this

/-! ### Location normalization -/

theorem isWhitespace_eq_false_of_ge {c : Char} (h₁ : 65 ≤ c.toNat) :
    c.isWhitespace = false := by
  cases hw : c.isWhitespace with
  | false => rfl
  | true =>
    exfalso
    simp only [Char.isWhitespace, Bool.or_eq_true, decide_eq_true_eq] at hw
    rcases hw with ((h | h) | h) | h <;> subst h <;> exact absurd h₁ (by decide)

theorem toLower_eq_add {c : Char} (hc : 65 ≤ c.toNat ∧ c.toNat ≤ 90) :
    c.toLower = Char.ofNat (c.toNat + 32) := by
  simp only [Char.toLower]
  rw [if_pos hc]

theorem toLower_eq_self {c : Char} (hc : ¬ (65 ≤ c.toNat ∧ c.toNat ≤ 90)) :
    c.toLower = c := by
  simp only [Char.toLower]
  rw [if_neg hc]

theorem isWhitespace_toLower (c : Char) :
    c.toLower.isWhitespace = c.isWhitespace := by
  by_cases hc : 65 ≤ c.toNat ∧ c.toNat ≤ 90
  · rw [toLower_eq_add hc, isWhitespace_eq_false_of_ge hc.1]
    obtain ⟨h1, h2⟩ := hc
    revert h1 h2
    generalize c.toNat = n
    intro h1 h2
    interval_cases n <;> decide
  · rw [toLower_eq_self hc]

theorem toLower_toLower (c : Char) : c.toLower.toLower = c.toLower := by
  by_cases hc : 65 ≤ c.toNat ∧ c.toNat ≤ 90
  · rw [toLower_eq_add hc]
    obtain ⟨h1, h2⟩ := hc
    revert h1 h2
    generalize c.toNat = n
    intro h1 h2
    interval_cases n <;> decide
  · rw [toLower_eq_self hc, toLower_eq_self hc]

/-- Tokenizer used by the normalizer: splits a character list into maximal
whitespace-free words, accumulating the current word reversed in `acc`. -/
def wordsAux : List Char → List Char → List (List Char)
  | [], acc => if acc = [] then [] else [acc.reverse]
  | c :: cs, acc =>
    if c.isWhitespace then
      if acc = [] then wordsAux cs [] else acc.reverse :: wordsAux cs []
    else wordsAux cs (c :: acc)

/-- Join words back together with a single space between consecutive words. -/
def joinWords : List (List Char) → List Char
  | [] => []
  | [w] => w
  | w :: ws => w ++ ' ' :: joinWords ws

/-- Modelled from the spec: LocationNormalizer.normalize on character lists —
case-fold, then split into words and rejoin with single spaces, which trims
outer whitespace and collapses internal whitespace runs (spec section 4.1). -/
def normalizeChars (l : List Char) : List Char :=
  joinWords (wordsAux (l.map Char.toLower) [])

/-- Modelled from the spec: the LocationNormalizer contract
`normalize(raw) -> key`.  Deterministic, pure and total; empty or
whitespace-only input normalizes to the empty key, the special
"no location" value that is never cached and never geocoded
(spec section 4.1). -/
def normalize (raw : String) : String :=
  ⟨normalizeChars raw.data⟩

/-- Case-folded copy of a string (auxiliary for stating case insensitivity). -/
def lowerStr (s : String) : String :=
  ⟨s.data.map Char.toLower⟩

theorem wordsAux_all_ws {ws : List Char} (h : ∀ c ∈ ws, c.isWhitespace) :
    ∀ acc, wordsAux ws acc = if acc = [] then [] else [acc.reverse] := by
  induction ws with
  | nil => intro acc; rfl
  | cons c cs ih =>
    intro acc
    have hc : c.isWhitespace = true := h c (List.mem_cons_self _ _)
    have ih' := ih fun x hx => h x (List.mem_cons_of_mem _ hx)
    by_cases ha : acc = []
    · subst ha
      simp only [wordsAux, hc, if_true, if_pos rfl]
      rw [ih' []]
      simp
    · simp only [wordsAux, hc, if_true, if_neg ha]
      rw [ih' []]
      simp [ha]

theorem wordsAux_ws_append {ws : List Char} (h : ∀ c ∈ ws, c.isWhitespace)
    (l : List Char) : wordsAux (ws ++ l) [] = wordsAux l [] := by
  induction ws with
  | nil => rfl
  | cons c cs ih =>
    have hc : c.isWhitespace = true := h c (List.mem_cons_self _ _)
    simp only [List.cons_append, wordsAux, hc, if_true, if_pos rfl]
    exact ih fun x hx => h x (List.mem_cons_of_mem _ hx)

theorem wordsAux_append_ws (l : List Char) {ws : List Char}
    (h : ∀ c ∈ ws, c.isWhitespace) :
    ∀ acc, wordsAux (l ++ ws) acc = wordsAux l acc := by
  induction l with
  | nil =>
    intro acc
    rw [List.nil_append, wordsAux_all_ws h acc]
    simp [wordsAux]
  | cons c cs ih =>
    intro acc
    by_cases hc : c.isWhitespace
    · by_cases ha : acc = []
      · subst ha
        simp only [List.cons_append, wordsAux, hc, if_true, if_pos rfl]
        exact ih []
      · simp only [List.cons_append, wordsAux, hc, if_true, if_neg ha]
        exact congrArg _ (ih [])
    · simp only [List.cons_append, wordsAux, hc, if_false, Bool.false_eq_true]
      exact ih _

theorem wordsAux_collapse (l₁ : List Char) {c : Char} (hc : c.isWhitespace)
    (l₂ : List Char) :
    ∀ acc, wordsAux (l₁ ++ c :: c :: l₂) acc = wordsAux (l₁ ++ c :: l₂) acc := by
  induction l₁ with
  | nil =>
    intro acc
    by_cases ha : acc = [] <;> simp [wordsAux, hc, ha]
  | cons a l₁ ih =>
    intro acc
    by_cases haw : a.isWhitespace
    · by_cases ha : acc = [] <;> simp [wordsAux, haw, ha, ih]
    · simp [wordsAux, haw, ih]

theorem normalize_ws_only {s : String} (h : ∀ c ∈ s.data, c.isWhitespace) :
    normalize s = "" := by
  have hmap : ∀ c ∈ s.data.map Char.toLower, c.isWhitespace := by
    intro c hcmem
    rcases List.mem_map.mp hcmem with ⟨x, hx, hxc⟩
    rw [← hxc, isWhitespace_toLower]
    exact h x hx
  show (⟨normalizeChars s.data⟩ : String) = ""
  unfold normalizeChars
  rw [wordsAux_all_ws hmap []]
  rfl

theorem normalize_lowerStr (s : String) : normalize (lowerStr s) = normalize s := by
  show (⟨normalizeChars (s.data.map Char.toLower)⟩ : String) = ⟨normalizeChars s.data⟩
  unfold normalizeChars
  rw [List.map_map]
  have hmm : List.map (Char.toLower ∘ Char.toLower) s.data
      = List.map Char.toLower s.data :=
    List.map_congr_left fun c _ => toLower_toLower c
  rw [hmm]

theorem normalize_pad {pre post : String} (s : String)
    (h₁ : ∀ c ∈ pre.data, c.isWhitespace) (h₂ : ∀ c ∈ post.data, c.isWhitespace) :
    normalize (pre ++ s ++ post) = normalize s := by
  have hmap : ∀ {t : String}, (∀ c ∈ t.data, c.isWhitespace) →
      ∀ c ∈ t.data.map Char.toLower, c.isWhitespace := by
    intro t ht c hcmem
    rcases List.mem_map.mp hcmem with ⟨x, hx, hxc⟩
    rw [← hxc, isWhitespace_toLower]
    exact ht x hx
  show (⟨normalizeChars (pre ++ s ++ post).data⟩ : String) = ⟨normalizeChars s.data⟩
  unfold normalizeChars
  rw [String.data_append, String.data_append, List.map_append, List.map_append,
    List.append_assoc]
  rw [wordsAux_ws_append (hmap h₁)]
  rw [wordsAux_append_ws _ (hmap h₂)]

theorem normalize_collapse (s t : String) {c : Char} (hc : c.isWhitespace) :
    normalize (s ++ ⟨[c, c]⟩ ++ t) = normalize (s ++ ⟨[c]⟩ ++ t) := by
  have hlc : (Char.toLower c).isWhitespace := by
    rw [isWhitespace_toLower]; exact hc
  show (⟨normalizeChars (s ++ ⟨[c, c]⟩ ++ t).data⟩ : String)
      = ⟨normalizeChars (s ++ ⟨[c]⟩ ++ t).data⟩
  unfold normalizeChars
  rw [String.data_append, String.data_append, String.data_append, String.data_append,
    List.map_append, List.map_append, List.map_append, List.map_append]
  simp only [List.map_cons, List.map_nil]
  rw [List.append_assoc, List.append_assoc]
  simp only [List.cons_append, List.nil_append]
  rw [wordsAux_collapse _ hlc]

/-! ### Geocoding cache -/

/-- Geocoding cache row, from `LocationAdmin` in
src/frontend/src/types/index.ts (coordinates as integers; the geocoded-at
timestamp is omitted as no claim concerns it). -/
structure LocationEntry where
  location_string : String
  normalized_location : String
  «alias» : Option String
  latitude : Option Int
  longitude : Option Int
  display_name : Option String
  country_code : Option String
  geocoding_failed : Bool
  usage_count : Nat
deriving DecidableEq, Repr

/-- Result of one external Geocoder call, from the capability
`Geocoder.geocode(addressText) -> {latitude, longitude, displayName?,
countryCode?}` failing with NoMatch or Unavailable (spec section 6). -/
inductive GeoResult where
  | ok (lat lng : Int) (displayName countryCode : Option String)
  | noMatch
  | unavailable
deriving DecidableEq, Repr

/-- The geocoding cache: entries keyed by unique normalized location. -/
structure Cache where
  entries : List LocationEntry
deriving DecidableEq, Repr

/-- Look up the entry for a normalized key. -/
def findEntry (c : Cache) (k : String) : Option LocationEntry :=
  c.entries.find? fun e => e.normalized_location = k

/-- Entry returned for the special "no location" input; it is never stored. -/
def noLocationEntry : LocationEntry :=
  { location_string := ""
    normalized_location := ""
    «alias» := none
    latitude := none
    longitude := none
    display_name := none
    country_code := none
    geocoding_failed := false
    usage_count := 0 }

/-- Build the entry persisted after the single geocode call for a fresh
location string (success or failure is recorded either way). -/
def entryOfResult (raw k : String) : GeoResult → LocationEntry
  | .ok lat lng dn cc =>
    { location_string := raw
      normalized_location := k
      «alias» := none
      latitude := some lat
      longitude := some lng
      display_name := dn
      country_code := cc
      geocoding_failed := false
      usage_count := 0 }
  | _ =>
    { location_string := raw
      normalized_location := k
      «alias» := none
      latitude := none
      longitude := none
      display_name := none
      country_code := none
      geocoding_failed := true
      usage_count := 0 }

/-- Modelled from the spec: `resolve(rawLocation) -> LocationEntry`
(spec section 4.2).  Normalizes the input; whitespace-only input is the
"no location" value, never cached and never geocoded; an existing entry
(failed or not) is returned as-is with zero external calls; otherwise the
Geocoder is called exactly once and the result persisted, success or
failure.  The third component counts the external geocode calls made. -/
def resolve (g : String → GeoResult) (c : Cache) (raw : String) :
    LocationEntry × Cache × Nat :=
  let k := normalize raw
  if k = "" then (noLocationEntry, c, 0)
  else
    match findEntry c k with
    | some e => (e, c, 0)
    | none =>
      let e := entryOfResult raw k (g raw)
      (e, ⟨c.entries ++ [e]⟩, 1)

/-- Replace the entry stored under a normalized key. -/
def updateEntry (c : Cache) (k : String) (e' : LocationEntry) : Cache :=
  ⟨c.entries.map fun e => if e.normalized_location = k then e' else e⟩

/-- Modelled from the spec: `setAlias(normalizedKey, alias)` records the
alias, clears the failed flag, and immediately performs exactly one geocode
attempt using the alias text; a geocoder error silently sets
`geocoding_failed` back to true, success populates the coordinates
(spec section 4.2).  Returns the updated cache, a success flag, and the
number of external geocode calls made. -/
def setAlias (g : String → GeoResult) (c : Cache) (k a : String) :
    Cache × Bool × Nat :=
  match findEntry c k with
  | none => (c, false, 0)
  | some e =>
    match g a with
    | .ok lat lng dn cc =>
      let e' := { e with
        «alias» := some a
        latitude := some lat
        longitude := some lng
        display_name := dn
        country_code := cc
        geocoding_failed := false }
      (updateEntry c k e', true, 1)
    | _ =>
      let e' := { e with «alias» := some a, geocoding_failed := true }
      (updateEntry c k e', false, 1)

/-- Modelled from the spec: `retry(normalizedKey)` forces exactly one
geocode attempt for an existing entry regardless of its failure state,
using the alias if present else the original string (spec section 4.2). -/
def retryKey (g : String → GeoResult) (c : Cache) (k : String) :
    Cache × Bool × Nat :=
  match findEntry c k with
  | none => (c, false, 0)
  | some e =>
    match g (e.«alias».getD e.location_string) with
    | .ok lat lng dn cc =>
      let e' := { e with
        latitude := some lat
        longitude := some lng
        display_name := dn
        country_code := cc
        geocoding_failed := false }
      (updateEntry c k e', true, 1)
    | _ =>
      let e' := { e with geocoding_failed := true }
      (updateEntry c k e', false, 1)

/-- Modelled from the spec: `incrementUsage(normalizedKey)`, called once per
event referencing the location; purely observational and never fails
(spec section 4.2). -/
def incrementUsage (c : Cache) (k : String) : Cache :=
  ⟨c.entries.map fun e =>
    if e.normalized_location = k then { e with usage_count := e.usage_count + 1 }
    else e⟩

/-- Fold `resolve` over a list of raw location strings, accumulating the
total number of external geocode calls. -/
def resolveAll (g : String → GeoResult) (c : Cache) : List String → Cache × Nat
  | [] => (c, 0)
  | r :: rs =>
    let p := resolve g c r
    let q := resolveAll g p.2.1 rs
    (q.1, p.2.2 + q.2)

/-! ### Cache lemmas -/

theorem resolve_hit {g : String → GeoResult} {c : Cache} {raw k : String}
    {e : LocationEntry} (hk : normalize raw = k) (hne : k ≠ "")
    (hf : findEntry c k = some e) : resolve g c raw = (e, c, 0) := by
  unfold resolve
  rw [hk, if_neg hne, hf]

theorem resolve_miss {g : String → GeoResult} {c : Cache} {raw k : String}
    (hk : normalize raw = k) (hne : k ≠ "") (hf : findEntry c k = none) :
    resolve g c raw
      = (entryOfResult raw k (g raw),
          ⟨c.entries ++ [entryOfResult raw k (g raw)]⟩, 1) := by
  unfold resolve
  rw [hk, if_neg hne, hf]

theorem entryOfResult_key (raw k : String) (r : GeoResult) :
    (entryOfResult raw k r).normalized_location = k := by
  cases r <;> rfl

theorem findEntry_append_singleton {c : Cache} {k : String} {e : LocationEntry}
    (hf : findEntry c k = none) (he : e.normalized_location = k) :
    findEntry ⟨c.entries ++ [e]⟩ k = some e := by
  unfold findEntry at hf ⊢
  rw [List.find?_append, hf]
  simp [List.find?, he]

theorem resolve_finds {g : String → GeoResult} {c : Cache} {raw k : String}
    (hk : normalize raw = k) (hne : k ≠ "") :
    findEntry (resolve g c raw).2.1 k = some (resolve g c raw).1 := by
  cases hf : findEntry c k with
  | some e => rw [resolve_hit hk hne hf]; exact hf
  | none =>
    rw [resolve_miss hk hne hf]
    exact findEntry_append_singleton hf (entryOfResult_key raw k (g raw))

/-! ### Tracking sync engine -/

/-- Result of the external `CourierTrackingProvider.fetch` call, failing
with NotFound, RateLimited or Unavailable (spec section 6; metadata other
than the events is omitted as no claim concerns it). -/
inductive FetchResult where
  | ok (events : List RawEvent)
  | notFound
  | rateLimited
  | unavailable
deriving DecidableEq, Repr

/-- Errors surfaced by `syncPackage` (spec section 4.4). -/
inductive SyncError where
  | providerUnavailable
  | invalidTrackingNumber
deriving DecidableEq, Repr

/-- Persisted package state touched by a sync: the timeline, the summary
and the shared location cache. -/
structure SyncState where
  events : List TrackingEvent
  summary : Summary
  cache : Cache
deriving DecidableEq, Repr

/-- Modelled from the spec: for each new event with a non-empty location
string, call GeocodingCache.resolve then incrementUsage
(spec section 4.4). -/
def enrichLocations (g : String → GeoResult) (newEvents : List TrackingEvent)
    (c : Cache) : Cache :=
  newEvents.foldl
    (fun cache e =>
      match e.location with
      | none => cache
      | some loc =>
        let r := resolve g cache loc
        incrementUsage r.2.1 r.1.normalized_location)
    c

/-- Modelled from the spec: the TrackingSyncEngine contract
`syncPackage(package) -> UpdatedPackage`, failing with ProviderUnavailable
(transient) or InvalidTrackingNumber (permanent), otherwise persisting the
new events and updated summary atomically; geocoding failures are absorbed
and a sync with zero new events succeeds (spec sections 4.4 and 7). -/
def syncPackage (g : String → GeoResult) (fetch : FetchResult)
    (st : SyncState) : Except SyncError SyncState :=
  match fetch with
  | .notFound => .error .invalidTrackingNumber
  | .rateLimited => .error .providerUnavailable
  | .unavailable => .error .providerUnavailable
  | .ok incoming =>
    let m := merge st.events incoming
    .ok
      { events := st.events ++ m.newEvents
        summary := m.summary
        cache := enrichLocations g m.newEvents st.cache }

/-! ### Dashboard refresh-all (src/frontend/src/pages/DashboardPage.tsx) -/

/-- Dashboard view of a package, from `Package` in
src/frontend/src/types/index.ts (only the fields read by the dashboard
sort and refresh logic). -/
structure Package where
  id : String
  last_status : Option Status
  last_updated : Option Nat
deriving DecidableEq, Repr

/-- Status priority for sorting, from `getStatusPriority` in
src/frontend/src/pages/DashboardPage.tsx (an absent status hits the
default branch). -/
def getStatusPriority : Option Status → Nat
  | some .exception => 0
  | some .outForDelivery => 1
  | some .inTransit => 2
  | some .pending => 3
  | some .delivered => 4
  | _ => 5

/-- Millisecond sort key used by the dashboard comparator: the last-updated
time, or 0 when absent (DashboardPage.tsx, sortedPackages). -/
def lastUpdatedTime (p : Package) : Nat :=
  p.last_updated.getD 0

/-- The dashboard comparator as a strict before-relation: lower status
priority first, and within equal priority the more recently updated first
(DashboardPage.tsx, sortedPackages). -/
def pkgBefore (a b : Package) : Bool :=
  decide (getStatusPriority a.last_status < getStatusPriority b.last_status
    ∨ (getStatusPriority a.last_status = getStatusPriority b.last_status
        ∧ lastUpdatedTime b < lastUpdatedTime a))

/-- Stable insertion of a package into an already sorted list: it is placed
after every element strictly before it, and before ties — matching the
stability of `Array.prototype.sort`. -/
def insertPkg (x : Package) : List Package → List Package
  | [] => [x]
  | y :: ys => if pkgBefore y x then y :: insertPkg x ys else x :: y :: ys

/-- `sortedPackages` from DashboardPage.tsx: the packages sorted by the
dashboard comparator with a stable sort. -/
def sortedPackages (ps : List Package) : List Package :=
  ps.foldr insertPkg []

/-- The non-delivered packages in display order, as filtered by
`handleRefreshAll` in DashboardPage.tsx. -/
def packagesToRefresh (ps : List Package) : List Package :=
  (sortedPackages ps).filter fun p => p.last_status ≠ some Status.delivered

/-- The sequential refresh loop of `handleRefreshAll`: each refresh is
attempted in order and a rejected refresh is caught and logged, never
stopping the loop (DashboardPage.tsx lines 308-314).  Returns the package
ids for which a refresh request was issued, in order. -/
def refreshAllLoop (refreshOne : String → Except String Unit) :
    List Package → List String
  | [] => []
  | p :: rest =>
    match refreshOne p.id with
    | .ok _ => p.id :: refreshAllLoop refreshOne rest
    | .error _ => p.id :: refreshAllLoop refreshOne rest

/-- `handleRefreshAll` from DashboardPage.tsx: refresh every non-delivered
package sequentially in the sorted display order. -/
def handleRefreshAll (refreshOne : String → Except String Unit)
    (ps : List Package) : List String :=
  refreshAllLoop refreshOne (packagesToRefresh ps)

/-! ### Dashboard lemmas -/

theorem refreshAllLoop_eq (refreshOne : String → Except String Unit)
    (l : List Package) : refreshAllLoop refreshOne l = l.map (·.id) := by
  induction l with
  | nil => rfl
  | cons p rest ih =>
    cases h : refreshOne p.id <;> simp only [refreshAllLoop, h, ih, List.map_cons]

theorem insertPkg_perm (x : Package) (l : List Package) :
    (insertPkg x l).Perm (x :: l) := by
  induction l with
  | nil => exact List.Perm.refl _
  | cons y ys ih =>
    unfold insertPkg
    by_cases hb : pkgBefore y x
    · rw [if_pos hb]
      exact (ih.cons y).trans (List.Perm.swap x y ys)
    · rw [if_neg hb]

theorem sortedPackages_perm (ps : List Package) :
    (sortedPackages ps).Perm ps := by
  induction ps with
  | nil => exact List.Perm.refl _
  | cons p rest ih =>
    exact (insertPkg_perm p (sortedPackages rest)).trans (ih.cons p)

/-! ### Unfolding lemmas for merge and concrete fixtures -/

theorem merge_newEvents (existing : List TrackingEvent) (incoming : List RawEvent) :
    (merge existing incoming).newEvents
      = dedupNew (existing.map naturalKey) incoming := rfl

theorem merge_summary (existing : List TrackingEvent) (incoming : List RawEvent) :
    (merge existing incoming).summary
      = computeSummary (existing ++ dedupNew (existing.map naturalKey) incoming) := rfl

/-- Fixture: raw event with the earliest timestamp. -/
def rawT1 : RawEvent :=
  { status := "Pending", location := some "Depot A", timestamp := some 1
    description := none, courier_event_code := some "P1" }

/-- Fixture: raw event with the middle timestamp, fetched last. -/
def rawT2 : RawEvent :=
  { status := "In Transit", location := some "Depot B", timestamp := some 2
    description := none, courier_event_code := some "T2" }

/-- Fixture: raw event with the latest timestamp, fetched first. -/
def rawT3 : RawEvent :=
  { status := "Out for Delivery", location := some "Depot C", timestamp := some 3
    description := none, courier_event_code := some "O3" }

/-- Fixture: a persisted Delivered event. -/
def evDelivered : TrackingEvent :=
  { status := .delivered, location := some "London, UK", timestamp := 5
    description := none, courier_event_code := some "DLV" }

/-- Fixture: a persisted in-transit event earlier than the delivery. -/
def evTransit : TrackingEvent :=
  { status := .inTransit, location := some "Depot A", timestamp := 3
    description := none, courier_event_code := some "T1" }

/-- Fixture: the parsed form of rawT1. -/
def evPending1 : TrackingEvent :=
  { status := .pending, location := some "Depot A", timestamp := 1
    description := none, courier_event_code := some "P1" }

/-- Fixture: the failed cache entry created for "Depot A" by a sync against
a never-matching geocoder, after one usage increment. -/
def entryDepotA : LocationEntry :=
  { location_string := "Depot A", normalized_location := "depot a"
    «alias» := none, latitude := none, longitude := none
    display_name := none, country_code := none
    geocoding_failed := true, usage_count := 1 }

/-- Fixture: a package state with no events and an empty cache. -/
def emptyState : SyncState := ⟨[], computeSummary [], ⟨[]⟩⟩

/-- Fixture: a geocoder that never matches. -/
def gNoMatch : String → GeoResult := fun _ => .noMatch

/-- Fixture: a geocoder that always succeeds with fixed coordinates. -/
def gOkGeo : String → GeoResult := fun _ => .ok 51 0 none none

/-! ### Claim theorems: event merging and sync -/

/-- C1: for a given package no two persisted events share the same
(timestamp, status, courier_event_code) triple; the merge preserves this
invariant, and a fetch containing the same raw event twice produces exactly
one persisted event. -/
theorem C1_natural_key_dedup (existing : List TrackingEvent)
    (incoming : List RawEvent) (hex : (existing.map naturalKey).Nodup) :
    ((existing ++ (merge existing incoming).newEvents).map naturalKey).Nodup ∧
    (∀ r e, parseRaw r = some e → (merge [] [r, r]).newEvents = [e]) := by
  constructor
  · rw [merge_newEvents, List.map_append, List.nodup_append]
    refine ⟨hex, dedupNew_nodup _ _, ?_⟩
    intro a ha hmem
    rcases List.mem_map.mp hmem with ⟨x, hx, hkey⟩
    have hnot := dedupNew_key_not_mem hx
    rw [hkey] at hnot
    exact hnot ha
  · intro r e hp
    rw [merge_newEvents]
    simp [dedupNew, hp]

/-- C1 witness: a concrete instantiation with a nonempty nodup timeline and
a duplicated raw event in one fetch. -/
theorem C1_natural_key_dedup_witness :
    (([evDelivered].map naturalKey).Nodup ∧
      (([evDelivered] ++ (merge [evDelivered] [rawT1, rawT1]).newEvents).map
          naturalKey).Nodup) ∧
    (merge [] [rawT1, rawT1]).newEvents = [evPending1] := by
  refine ⟨⟨by decide, (C1_natural_key_dedup [evDelivered] [rawT1, rawT1] (by decide)).1⟩, ?_⟩
  exact (C1_natural_key_dedup [] [] (by decide)).2 rawT1 _ rfl

/-- C2: syncPackage is idempotent against an unchanged upstream feed — an
immediate second sync with the same provider events inserts zero new events
and leaves the package state, in particular every summary field,
unchanged. -/
theorem C2_syncPackage_idempotent (g : String → GeoResult)
    (incoming : List RawEvent) (st st₁ : SyncState)
    (h : syncPackage g (.ok incoming) st = .ok st₁) :
    (merge st₁.events incoming).newEvents = [] ∧
    syncPackage g (.ok incoming) st₁ = .ok st₁ := by
  simp only [syncPackage, Except.ok.injEq] at h
  subst h
  have hcov : ∀ r ∈ incoming, ∀ e, parseRaw r = some e →
      naturalKey e ∈ (st.events ++ (merge st.events incoming).newEvents).map
        naturalKey := by
    intro r hr e hp
    rw [merge_newEvents, List.map_append]
    rcases @dedupNew_covers (st.events.map naturalKey) incoming r e hr hp with hc | hc
    · exact List.mem_append_left _ hc
    · exact List.mem_append_right _ hc
  have h1 : (merge (st.events ++ (merge st.events incoming).newEvents)
      incoming).newEvents = [] := by
    rw [merge_newEvents]
    exact dedupNew_eq_nil_of_covered hcov
  constructor
  · exact h1
  · simp only [syncPackage, Except.ok.injEq]
    rw [h1, List.append_nil]
    have hsum : (merge (st.events ++ (merge st.events incoming).newEvents)
        incoming).summary = (merge st.events incoming).summary := by
      rw [merge_summary (st.events ++ (merge st.events incoming).newEvents),
        merge_newEvents] at *
      rw [merge_summary]
      rw [show dedupNew ((st.events ++ dedupNew (st.events.map naturalKey)
          incoming).map naturalKey) incoming = [] from h1]
      rw [List.append_nil]
    rw [hsum]
    rfl

/-- C2 witness: a concrete first sync whose repetition is a no-op. -/
theorem C2_syncPackage_idempotent_witness :
    syncPackage gNoMatch (.ok [rawT1]) emptyState
        = .ok ⟨[evPending1], computeSummary [evPending1], ⟨[entryDepotA]⟩⟩ ∧
    (merge [evPending1] [rawT1]).newEvents = [] := by
  constructor
  · rfl
  · exact (C2_syncPackage_idempotent gNoMatch [rawT1] emptyState
      ⟨[evPending1], computeSummary [evPending1], ⟨[entryDepotA]⟩⟩ (by rfl)).1

/-- C3: after every merge the summary fields equal those of the
chronologically latest event of the union of existing and new events, where
the latest event is a member of the union carrying its maximal timestamp
and ties are broken stably in favour of the later fetch position; for
events fetched in order T3, T1, T2 the summary reflects the event at the
maximal timestamp T3, not the last one fetched. -/
theorem C3_summary_reflects_latest (existing : List TrackingEvent)
    (incoming : List RawEvent)
    (hne : existing ++ (merge existing incoming).newEvents ≠ []) :
    (∃ e ∈ existing ++ (merge existing incoming).newEvents,
      (∀ x ∈ existing ++ (merge existing incoming).newEvents,
        x.timestamp ≤ e.timestamp) ∧
      (merge existing incoming).summary.last_status = some e.status ∧
      (merge existing incoming).summary.last_location = e.location ∧
      (merge existing incoming).summary.last_updated = some e.timestamp) ∧
    (∀ (l₁ : List TrackingEvent) (e : TrackingEvent) (l₂ : List TrackingEvent),
      (∀ x ∈ l₁, x.timestamp ≤ e.timestamp) →
      (∀ x ∈ l₂, x.timestamp < e.timestamp) →
      latestEvent (l₁ ++ e :: l₂) = some e) ∧
    ((merge [] [rawT3, rawT1, rawT2]).summary.last_status
        = some Status.outForDelivery ∧
      (merge [] [rawT3, rawT1, rawT2]).summary.last_location = some "Depot C" ∧
      (merge [] [rawT3, rawT1, rawT2]).summary.last_updated = some 3) := by
  refine ⟨?_, latestEvent_stable, by decide, by decide, by decide⟩
  cases hu : existing ++ (merge existing incoming).newEvents with
  | nil => exact absurd hu hne
  | cons y ys =>
    have hle : latestEvent (y :: ys) = some (ys.foldl pickLater y) := rfl
    refine ⟨ys.foldl pickLater y, latestEvent_mem hle, latestEvent_isMax hle,
      ?_, ?_, ?_⟩
    · show (latestEvent (existing ++ (merge existing incoming).newEvents)).map
          (·.status) = some (ys.foldl pickLater y).status
      rw [hu]
      rfl
    · show (latestEvent (existing ++ (merge existing incoming).newEvents)).bind
          (·.location) = (ys.foldl pickLater y).location
      rw [hu]
      rfl
    · show (latestEvent (existing ++ (merge existing incoming).newEvents)).map
          (·.timestamp) = some (ys.foldl pickLater y).timestamp
      rw [hu]
      rfl

/-- C3 witness: the nonemptiness hypothesis discharged on a concrete
timeline, and the tie-break clause exercised at concrete lists. -/
theorem C3_summary_reflects_latest_witness :
    (merge [evDelivered] ([] : List RawEvent)).summary.last_status
        = some Status.delivered ∧
    latestEvent ([evTransit] ++ evDelivered :: []) = some evDelivered := by
  constructor
  · rcases (C3_summary_reflects_latest [evDelivered] [] (by decide)).1
      with ⟨e, hmem, hmax, hstat, hloc, hupd⟩
    have he : e = evDelivered := by
      rcases List.mem_cons.mp hmem with h | h
      · exact h
      · rw [merge_newEvents] at h
        simp [dedupNew] at h
    rw [hstat, he]
    rfl
  · exact (C3_summary_reflects_latest [evDelivered] [] (by decide)).2.1
      [evTransit] evDelivered [] (by decide) (by decide)

/-- C8: delivered_at is monotone set-once — once the computed summary holds
a delivered_at obtained from a Delivered event, every subsequent merge,
including one whose incoming events are out-of-order non-delivered events
with earlier or equal timestamps, yields a summary whose delivered_at is
still set and at least as late. -/
theorem C8_delivered_at_monotone (existing : List TrackingEvent)
    (incoming : List RawEvent) (d : Nat)
    (h : (computeSummary existing).delivered_at = some d) :
    ∃ d₁, (merge existing incoming).summary.delivered_at = some d₁ ∧ d ≤ d₁ := by
  have h' : latestDeliveredAt existing = some d := h
  rcases latestDeliveredAt_mono h'
      (dedupNew (existing.map naturalKey) incoming) with ⟨d₁, hd₁, hled⟩
  refine ⟨d₁, ?_, hled⟩
  rw [merge_summary]
  exact hd₁

/-- C8 witness: a delivered timeline merged with an earlier out-of-order
in-transit event keeps its delivered_at. -/
theorem C8_delivered_at_monotone_witness :
    (computeSummary [evDelivered]).delivered_at = some 5 ∧
    ∃ d₁, (merge [evDelivered] [rawT2]).summary.delivered_at = some d₁ ∧ 5 ≤ d₁ := by
  exact ⟨by decide, C8_delivered_at_monotone [evDelivered] [rawT2] 5 (by decide)⟩

/-- C9: syncPackage fails only with ProviderUnavailable or
InvalidTrackingNumber, each determined by the courier-provider fetch
outcome; a successful fetch always yields a successful sync regardless of
geocoder behaviour, in particular one with zero new events. -/
theorem C9_sync_error_surface (g : String → GeoResult) (st : SyncState) :
    syncPackage g .notFound st = .error .invalidTrackingNumber ∧
    syncPackage g .rateLimited st = .error .providerUnavailable ∧
    syncPackage g .unavailable st = .error .providerUnavailable ∧
    (∀ incoming, ∃ st₁, syncPackage g (.ok incoming) st = .ok st₁) ∧
    (∀ f err, syncPackage g f st = .error err →
      f = .notFound ∨ f = .rateLimited ∨ f = .unavailable) := by
  refine ⟨rfl, rfl, rfl, fun incoming => ⟨_, rfl⟩, ?_⟩
  intro f err hf
  cases f with
  | ok incoming => exact absurd hf (by simp [syncPackage])
  | notFound => exact Or.inl rfl
  | rateLimited => exact Or.inr (Or.inl rfl)
  | unavailable => exact Or.inr (Or.inr rfl)

/-- C9 witness: the provider-error cases and the absorbed-geocoder-failure
case at concrete inputs. -/
theorem C9_sync_error_surface_witness :
    syncPackage gNoMatch .notFound emptyState = .error .invalidTrackingNumber ∧
    (∃ st₁, syncPackage gNoMatch (.ok [rawT1]) emptyState = .ok st₁) ∧
    (FetchResult.notFound = .notFound ∨ FetchResult.notFound = .rateLimited
      ∨ FetchResult.notFound = .unavailable) := by
  refine ⟨(C9_sync_error_surface gNoMatch emptyState).1,
    (C9_sync_error_surface gNoMatch emptyState).2.2.2.1 [rawT1],
    (C9_sync_error_surface gNoMatch emptyState).2.2.2.2
      .notFound .invalidTrackingNumber (by rfl)⟩

/-! ### Further cache lemmas -/

theorem resolveAll_zero_of_some {g : String → GeoResult} {c : Cache} {k : String}
    {rs : List String} (hk : ∀ r ∈ rs, normalize r = k) (hne : k ≠ "")
    (hs : (findEntry c k).isSome) : resolveAll g c rs = (c, 0) := by
  induction rs with
  | nil => rfl
  | cons r rs ih =>
    rcases Option.isSome_iff_exists.mp hs with ⟨e, he⟩
    have h1 : resolve g c r = (e, c, 0) :=
      resolve_hit (hk r (List.mem_cons_self _ _)) hne he
    simp only [resolveAll, h1]
    rw [ih fun x hx => hk x (List.mem_cons_of_mem _ hx)]
    rfl

theorem findEntry_key {c : Cache} {k : String} {e : LocationEntry}
    (hf : findEntry c k = some e) : e.normalized_location = k := by
  have := List.find?_some hf
  simpa using this

theorem find?_map_update (l : List LocationEntry) (k : String)
    (e' : LocationEntry) (he' : e'.normalized_location = k)
    (hs : (l.find? fun e => e.normalized_location = k).isSome) :
    ((l.map fun e => if e.normalized_location = k then e' else e).find?
      fun e => e.normalized_location = k) = some e' := by
  induction l with
  | nil => simp at hs
  | cons x xs ih =>
    by_cases hx : x.normalized_location = k
    · simp only [List.map_cons, if_pos hx]
      rw [List.find?_cons_of_pos]
      simpa using he'
    · simp only [List.map_cons, if_neg hx]
      rw [List.find?_cons_of_neg]
      · apply ih
        rw [List.find?_cons_of_neg] at hs
        · exact hs
        · simpa using hx
      · simpa using hx

theorem findEntry_updateEntry {c : Cache} {k : String} {e' : LocationEntry}
    (he' : e'.normalized_location = k) (hs : (findEntry c k).isSome) :
    findEntry (updateEntry c k e') k = some e' :=
  find?_map_update c.entries k e' he' hs

/-! ### Claim theorems: geocoding cache -/

/-- C4: at most one external Geocoder call is ever issued for a normalized
key — a resolve over an existing entry makes zero calls, a resolve over a
missing entry makes exactly one call and persists the result, and any
sequence of resolves of strings sharing one normalized key makes at most
one call in total. -/
theorem C4_at_most_one_geocode (g : String → GeoResult) (c : Cache)
    (k : String) (rs : List String)
    (hk : ∀ r ∈ rs, normalize r = k) (hne : k ≠ "") :
    (resolveAll g c rs).2 ≤ 1 ∧
    ((findEntry c k).isSome → (resolveAll g c rs).2 = 0) ∧
    (findEntry c k = none → rs ≠ [] →
      (resolveAll g c rs).2 = 1 ∧ (findEntry (resolveAll g c rs).1 k).isSome) := by
  cases hf : findEntry c k with
  | some e =>
    have hz : resolveAll g c rs = (c, 0) :=
      resolveAll_zero_of_some hk hne (by rw [hf]; rfl)
    rw [hz]
    exact ⟨Nat.zero_le 1, fun _ => rfl, fun hnone _ => Option.noConfusion hnone⟩
  | none =>
    cases rs with
    | nil =>
      exact ⟨Nat.zero_le 1, fun _ => rfl, fun _ hne2 => absurd rfl hne2⟩
    | cons r rs₁ =>
      have hk1 : normalize r = k := hk r (List.mem_cons_self _ _)
      have hfind : findEntry (resolve g c r).2.1 k = some (resolve g c r).1 :=
        resolve_finds hk1 hne
      have hz : resolveAll g (resolve g c r).2.1 rs₁ = ((resolve g c r).2.1, 0) :=
        resolveAll_zero_of_some (fun x hx => hk x (List.mem_cons_of_mem _ hx)) hne
          (by rw [hfind]; rfl)
      have hcalls : (resolve g c r).2.2 = 1 := by
        rw [resolve_miss hk1 hne hf]
      have hval : resolveAll g c (r :: rs₁)
          = ((resolve g c r).2.1, (resolve g c r).2.2 + 0) := by
        simp only [resolveAll, hz]
      rw [hval, hcalls]
      refine ⟨Nat.le_refl 1, fun hsome => ?_, fun _ _ => ⟨rfl, ?_⟩⟩
      · simp at hsome
      · show (findEntry (resolve g c r).2.1 k).isSome
        rw [hfind]
        rfl

/-- C4 witness: resolving two cosmetic variants of one location against an
empty cache issues exactly one geocode call. -/
theorem C4_at_most_one_geocode_witness :
    (resolveAll gOkGeo ⟨[]⟩ ["LONDON, UK", "london, uk"]).2 ≤ 1 ∧
    (resolveAll gOkGeo ⟨[]⟩ ["LONDON, UK", "london, uk"]).2 = 1 := by
  refine ⟨(C4_at_most_one_geocode gOkGeo ⟨[]⟩ "london, uk"
      ["LONDON, UK", "london, uk"] (by decide) (by decide)).1,
    ((C4_at_most_one_geocode gOkGeo ⟨[]⟩ "london, uk"
      ["LONDON, UK", "london, uk"] (by decide) (by decide)).2.2 rfl
        (by decide)).1⟩

/-- C5: geocoding failures are sticky and invisible to resolve's caller — a
failed entry is returned as-is with zero external calls and an unchanged
cache, and a fresh lookup whose geocoder fails persists a valid entry with
empty coordinates and the failed flag set rather than raising. -/
theorem C5_sticky_failure (g : String → GeoResult) (c : Cache) (raw k : String)
    (e : LocationEntry) (hk : normalize raw = k) (hne : k ≠ "")
    (hf : findEntry c k = some e) (hfail : e.geocoding_failed = true) :
    resolve g c raw = (e, c, 0) ∧
    (∀ (raw₁ k₁ : String) (c₁ : Cache), normalize raw₁ = k₁ → k₁ ≠ "" →
      findEntry c₁ k₁ = none → (g raw₁ = .noMatch ∨ g raw₁ = .unavailable) →
      (resolve g c₁ raw₁).1.geocoding_failed = true ∧
      (resolve g c₁ raw₁).1.latitude = none ∧
      (resolve g c₁ raw₁).1.longitude = none) := by
  refine ⟨resolve_hit hk hne hf, ?_⟩
  intro raw₁ k₁ c₁ hk₁ hne₁ hf₁ hg
  rw [resolve_miss hk₁ hne₁ hf₁]
  rcases hg with hg | hg <;> rw [hg] <;> exact ⟨rfl, rfl, rfl⟩

/-- Fixture: a failed cache entry for a cryptic courier facility code. -/
def entryHub : LocationEntry :=
  { location_string := "HUB-44", normalized_location := "hub-44"
    «alias» := none, latitude := none, longitude := none
    display_name := none, country_code := none
    geocoding_failed := true, usage_count := 3 }

/-- C5 witness: a concrete failed entry is returned as-is without retrying. -/
theorem C5_sticky_failure_witness :
    resolve gOkGeo ⟨[entryHub]⟩ "HUB-44" = (entryHub, ⟨[entryHub]⟩, 0) := by
  exact (C5_sticky_failure gOkGeo ⟨[entryHub]⟩ "HUB-44" "hub-44" entryHub
    (by decide) (by decide) (by rfl) (by rfl)).1

/-- C6: normalize is a pure total function that trims, case-folds and
collapses whitespace, maps whitespace-only input to the "no location" key,
and makes raw strings differing only in case or incidental whitespace —
such as the spec's three London variants — normalize to the same key and
resolve to the same LocationEntry. -/
theorem C6_normalize_behaviour :
    (∀ s : String, (∀ c ∈ s.data, c.isWhitespace) → normalize s = "") ∧
    (∀ s : String, normalize (lowerStr s) = normalize s) ∧
    (∀ (pre s post : String), (∀ c ∈ pre.data, c.isWhitespace) →
      (∀ c ∈ post.data, c.isWhitespace) →
      normalize (pre ++ s ++ post) = normalize s) ∧
    (∀ (s t : String) (c : Char), c.isWhitespace →
      normalize (s ++ ⟨[c, c]⟩ ++ t) = normalize (s ++ ⟨[c]⟩ ++ t)) ∧
    (normalize "LONDON, UK" = normalize "london, uk" ∧
      normalize "  London,  UK " = normalize "london, uk") ∧
    (∀ (g : String → GeoResult) (c : Cache),
      (resolve g (resolve g c "LONDON, UK").2.1 "london, uk").1
          = (resolve g c "LONDON, UK").1 ∧
      (resolve g (resolve g c "LONDON, UK").2.1 "  London,  UK ").1
          = (resolve g c "LONDON, UK").1) := by
  refine ⟨fun s h => normalize_ws_only h, normalize_lowerStr,
    fun pre s post h₁ h₂ => normalize_pad s h₁ h₂,
    fun s t c hc => normalize_collapse s t hc, ⟨by decide, by decide⟩, ?_⟩
  intro g c
  have h1 : normalize "LONDON, UK" = "london, uk" := by decide
  have h2 : normalize "london, uk" = "london, uk" := by decide
  have h3 : normalize "  London,  UK " = "london, uk" := by decide
  have hne : ("london, uk" : String) ≠ "" := by decide
  have hfind := @resolve_finds g c "LONDON, UK" "london, uk" h1 hne
  constructor
  · rw [resolve_hit h2 hne hfind]
  · rw [resolve_hit h3 hne hfind]

/-- C6 witness: the hypothesis-bearing clauses exercised at concrete
strings. -/
theorem C6_normalize_behaviour_witness :
    normalize "   " = "" ∧
    normalize (" " ++ "London, UK" ++ "  ") = normalize "London, UK" ∧
    normalize ("a" ++ ⟨[' ', ' ']⟩ ++ "b") = normalize ("a" ++ ⟨[' ']⟩ ++ "b") := by
  refine ⟨C6_normalize_behaviour.1 "   " (by decide),
    C6_normalize_behaviour.2.2.1 " " "London, UK" "  " (by decide) (by decide),
    C6_normalize_behaviour.2.2.2.1 "a" "b" ' ' (by decide)⟩

/-- C7: for an existing entry, setAlias records the alias under the
normalized key and performs exactly one geocode attempt with the alias text
within the operation; geocoder success clears the failed flag and populates
the coordinates, geocoder failure silently sets the failed flag without
raising. -/
theorem C7_setAlias_geocodes (g : String → GeoResult) (c : Cache) (k a : String)
    (e : LocationEntry) (hf : findEntry c k = some e) :
    (setAlias g c k a).2.2 = 1 ∧
    ∃ e₁, findEntry (setAlias g c k a).1 k = some e₁ ∧
      e₁.«alias» = some a ∧
      (∀ lat lng dn cc, g a = .ok lat lng dn cc →
        e₁.geocoding_failed = false ∧ e₁.latitude = some lat ∧
        e₁.longitude = some lng ∧ (setAlias g c k a).2.1 = true) ∧
      ((g a = .noMatch ∨ g a = .unavailable) →
        e₁.geocoding_failed = true ∧ (setAlias g c k a).2.1 = false) := by
  have hkey := findEntry_key hf
  have hs : (findEntry c k).isSome := by rw [hf]; rfl
  cases hg : g a with
  | ok lat lng dn cc =>
    have hsa : setAlias g c k a
        = (updateEntry c k
            { e with
              «alias» := some a
              latitude := some lat
              longitude := some lng
              display_name := dn
              country_code := cc
              geocoding_failed := false },
          true, 1) := by
      simp only [setAlias, hf, hg]
    rw [hsa]
    refine ⟨rfl, _, findEntry_updateEntry hkey hs, rfl, ?_, ?_⟩
    · intro lat₁ lng₁ dn₁ cc₁ hg₁
      cases hg₁
      exact ⟨rfl, rfl, rfl, rfl⟩
    · intro hbad
      rcases hbad with hbad | hbad <;> cases hbad
  | noMatch =>
    have hsa : setAlias g c k a
        = (updateEntry c k
            { e with
              «alias» := some a
              geocoding_failed := true },
          false, 1) := by
      simp only [setAlias, hf, hg]
    rw [hsa]
    refine ⟨rfl, _, findEntry_updateEntry hkey hs, rfl, ?_, fun _ => ⟨rfl, rfl⟩⟩
    intro lat₁ lng₁ dn₁ cc₁ hg₁
    cases hg₁
  | unavailable =>
    have hsa : setAlias g c k a
        = (updateEntry c k
            { e with
              «alias» := some a
              geocoding_failed := true },
          false, 1) := by
      simp only [setAlias, hf, hg]
    rw [hsa]
    refine ⟨rfl, _, findEntry_updateEntry hkey hs, rfl, ?_, fun _ => ⟨rfl, rfl⟩⟩
    intro lat₁ lng₁ dn₁ cc₁ hg₁
    cases hg₁

/-- C7 witness: correcting the failed "HUB-44" entry with a real place name
and a succeeding geocoder. -/
theorem C7_setAlias_geocodes_witness :
    (setAlias gOkGeo ⟨[entryHub]⟩ "hub-44" "Heathrow Airport, UK").2.2 = 1 ∧
    ∃ e₁, findEntry (setAlias gOkGeo ⟨[entryHub]⟩ "hub-44"
        "Heathrow Airport, UK").1 "hub-44" = some e₁ ∧
      e₁.«alias» = some "Heathrow Airport, UK" ∧
      (∀ lat lng dn cc, gOkGeo "Heathrow Airport, UK" = .ok lat lng dn cc →
        e₁.geocoding_failed = false ∧ e₁.latitude = some lat ∧
        e₁.longitude = some lng ∧
        (setAlias gOkGeo ⟨[entryHub]⟩ "hub-44" "Heathrow Airport, UK").2.1
          = true) ∧
      ((gOkGeo "Heathrow Airport, UK" = .noMatch
          ∨ gOkGeo "Heathrow Airport, UK" = .unavailable) →
        e₁.geocoding_failed = true ∧
        (setAlias gOkGeo ⟨[entryHub]⟩ "hub-44" "Heathrow Airport, UK").2.1
          = false) := by
  exact C7_setAlias_geocodes gOkGeo ⟨[entryHub]⟩ "hub-44" "Heathrow Airport, UK"
    entryHub (by rfl)

/-! ### Claim theorem: dashboard refresh-all -/

/-- C10: Refresh All issues a tracking refresh for exactly the packages
whose last_status is not Delivered, sequentially in the sorted display
order, and a rejected refresh of one package never prevents the requests
for the remaining packages — the attempted sequence is independent of the
individual outcomes. -/
theorem C10_refresh_all (refreshOne : String → Except String Unit)
    (ps : List Package) :
    handleRefreshAll refreshOne ps = (packagesToRefresh ps).map (·.id) ∧
    packagesToRefresh ps = (sortedPackages ps).filter
      (fun p => p.last_status ≠ some Status.delivered) ∧
    (∀ pid, pid ∈ handleRefreshAll refreshOne ps ↔
      ∃ p ∈ ps, p.id = pid ∧ p.last_status ≠ some Status.delivered) := by
  refine ⟨refreshAllLoop_eq refreshOne (packagesToRefresh ps), rfl, ?_⟩
  intro pid
  rw [handleRefreshAll, refreshAllLoop_eq]
  constructor
  · intro hmem
    rcases List.mem_map.mp hmem with ⟨p, hp, hid⟩
    rcases List.mem_filter.mp hp with ⟨hmemS, hpred⟩
    exact ⟨p, (sortedPackages_perm ps).mem_iff.mp hmemS, hid,
      by simpa using hpred⟩
  · rintro ⟨p, hmem, hid, hpred⟩
    exact List.mem_map.mpr ⟨p, List.mem_filter.mpr
      ⟨(sortedPackages_perm ps).mem_iff.mpr hmem, by simpa using hpred⟩, hid⟩

end Trackit
